import Mathlib

/-!
Verification of the software-PWM core of an RP2040 LED driver.

The program (src/main.rs) drives eight LEDs through a shift register using
a sorted-level ("bit-angle") software PWM scheme.  This file shallowly
embeds the three core pieces:

* `PwmData.reflect` — rebuilds the 9-entry step table from the 8 levels;
* `update_data` — the animation tick (modelled over exact rationals in
  place of `f32`: every claim settled against this model is either
  independent of rounding or evaluated at dyadic points where the `f32`
  computation is exact);
* `repeat_pwm` — the player loop, modelled as the list of
  (written word, delay in microseconds) events it emits for a snapshot.

Machine `u32` arithmetic is modelled on `ℕ` with explicit wrap-around
(`% 2^32`), so that under- and overflow behave exactly as in the compiled
(release-mode) program.  Rust float-to-integer `as` casts saturate (they
do not wrap), which `f32toU32` reproduces.
-/

namespace Rp2040

/-- Number of values of a `u32`. -/
def U32 : ℕ := 2 ^ 32

/-- Wrapping `u32` subtraction, as compiled Rust release code computes
`a - b` on `u32` (two's complement wrap-around). -/
def u32sub (a b : ℕ) : ℕ := (a + (U32 - b % U32)) % U32

/-- Bitwise `u32` complement `!x` of Rust, i.e. XOR with the all-ones word. -/
def u32not (x : ℕ) : ℕ := (U32 - 1) ^^^ x

/-- Wrapping `u32` shift-left, as in Rust `a << n` (for `n < 32`). -/
def u32shl (a n : ℕ) : ℕ := (a <<< n) % U32

/-- One PWM step, from `struct PwmStep { length: u32, data: u32 }`. -/
structure PwmStep where
  length : ℕ
  data : ℕ
deriving DecidableEq, Repr

/-- `self.pwm_levels[i]` for an index `i` (the program only ever uses
indices `0..=7` into the 8-element array). -/
def levelOf (levels : List ℕ) (i : ℕ) : ℕ := levels.getD i 0

/-- The sorted index permutation of `reflect`:
`indices.sort_unstable_by_key(|&i| self.pwm_levels[i])` applied to
`[0, 1, 2, 3, 4, 5, 6, 7]`.  Modelled with insertion sort; Rust's
`sort_unstable_by_key` is also a sort of the same list by the same key,
differing at most in the order of tied indices, which the claims treat
as an arbitrary tie-break. -/
def sortedIndices (levels : List ℕ) : List ℕ :=
  List.insertionSort (fun i j => levelOf levels i ≤ levelOf levels j) (List.range 8)

/-- The `for (i, &cur_index) in indices.iter().enumerate()` loop of
`reflect`: emits one `PwmStep` per index, threading the working mask
`data` and `prev_level`; returns the emitted steps together with the
final `cur_level`. -/
def reflectLoop (levels : List ℕ) : List ℕ → ℕ → ℕ → List PwmStep × ℕ
  | [], _, prev => ([], prev)
  | i :: rest, data, prev =>
    let cur := levelOf levels i
    let res := reflectLoop levels rest (data &&& u32not (1 <<< i)) cur
    (⟨u32sub cur prev, data⟩ :: res.1, res.2)

/-- `PwmData::reflect`: the full 9-entry step table, i.e. the 8 loop steps
followed by `PwmStep { length: 255 - cur_level, data: 0 }`. -/
def reflect (levels : List ℕ) : List PwmStep :=
  let r := reflectLoop levels (sortedIndices levels) 255 0
  r.1 ++ [⟨u32sub 255 r.2, 0⟩]

/-- Successive wrapped differences: `diffs prev [a, b, c] =
[a - prev, b - a, c - b]` with `u32` wrap-around; the lengths emitted by
the `reflect` loop along the sorted levels. -/
def diffs : ℕ → List ℕ → List ℕ
  | _, [] => []
  | prev, x :: xs => u32sub x prev :: diffs x xs

/-- The trace of working masks of the `reflect` loop: the mask recorded in
each step, starting from `data` and clearing bit `i` after each index `i`. -/
def dataTrace : List ℕ → ℕ → List ℕ
  | [], _ => []
  | i :: rest, d => d :: dataTrace rest (d &&& u32not (1 <<< i))

/-- Number of active (set) bits among the 8 LED bit positions of a mask. -/
def activeBits (m : ℕ) : ℕ := (List.range 8).countP (fun i => m.testBit i)

/-- The claims quantify over arrays of 8 levels each in `[0, 255]`. -/
def ValidLevels (levels : List ℕ) : Prop :=
  levels.length = 8 ∧ ∀ l ∈ levels, l ≤ 255

instance (levels : List ℕ) : Decidable (ValidLevels levels) := by
  unfold ValidLevels; infer_instance

theorem u32sub_eq {a b : ℕ} (hb : b ≤ a) (ha : a < U32) : u32sub a b = a - b := by
  have hbU : b < U32 := lt_of_le_of_lt hb ha
  unfold u32sub
  rw [Nat.mod_eq_of_lt hbU]
  have h1 : a + (U32 - b) = (a - b) + U32 := by omega
  rw [h1, Nat.add_mod_right, Nat.mod_eq_of_lt (by omega)]

theorem reflectLoop_fst_lengths (levels idxs : List ℕ) (data prev : ℕ) :
    (reflectLoop levels idxs data prev).1.map (fun s => s.length) =
      diffs prev (idxs.map (levelOf levels)) := by
  induction idxs generalizing data prev with
  | nil => rfl
  | cons i rest ih => simp [reflectLoop, diffs, ih]

theorem reflectLoop_fst_masks (levels idxs : List ℕ) (data prev : ℕ) :
    (reflectLoop levels idxs data prev).1.map (fun s => s.data) = dataTrace idxs data := by
  induction idxs generalizing data prev with
  | nil => rfl
  | cons i rest ih => simp [reflectLoop, dataTrace, ih]

theorem reflectLoop_snd (levels idxs : List ℕ) (data prev : ℕ) :
    (reflectLoop levels idxs data prev).2 = (idxs.map (levelOf levels)).getLastD prev := by
  induction idxs generalizing data prev with
  | nil => rfl
  | cons i rest ih =>
    show (reflectLoop levels rest _ (levelOf levels i)).2 = _
    rw [ih, List.map_cons, List.getLastD_cons]

theorem reflectLoop_fst_length (levels idxs : List ℕ) (data prev : ℕ) :
    (reflectLoop levels idxs data prev).1.length = idxs.length := by
  induction idxs generalizing data prev with
  | nil => rfl
  | cons i rest ih => simp [reflectLoop, ih]

theorem diffs_sum {prev : ℕ} {ls : List ℕ} (hch : List.Chain (· ≤ ·) prev ls)
    (hle : ∀ x ∈ ls, x ≤ 255) :
    (diffs prev ls).sum + prev = ls.getLastD prev := by
  induction ls generalizing prev with
  | nil => simp [diffs]
  | cons x xs ih =>
    rw [List.chain_cons] at hch
    have hx : x ≤ 255 := hle x (by simp)
    have hsub : u32sub x prev = x - prev :=
      u32sub_eq hch.1 (lt_of_le_of_lt hx (by norm_num [U32]))
    have ih' := ih hch.2 (fun y hy => hle y (by simp [hy]))
    simp only [diffs, List.sum_cons, List.getLastD_cons, hsub]
    omega

theorem diffs_mem {prev : ℕ} {ls : List ℕ} (hch : List.Chain (· ≤ ·) prev ls)
    (hle : ∀ x ∈ ls, x ≤ 255) :
    ∀ d ∈ diffs prev ls, ∃ a b, b ≤ a ∧ a ≤ 255 ∧ d = a - b := by
  induction ls generalizing prev with
  | nil => simp [diffs]
  | cons x xs ih =>
    rw [List.chain_cons] at hch
    have hx : x ≤ 255 := hle x (by simp)
    intro d hd
    rcases List.mem_cons.mp hd with rfl | hd
    · exact ⟨x, prev, hch.1, hx,
        by rw [u32sub_eq hch.1 (lt_of_le_of_lt hx (by norm_num [U32]))]⟩
    · exact ih hch.2 (fun y hy => hle y (by simp [hy])) d hd

theorem getLastD_bounds {prev : ℕ} {ls : List ℕ} (hch : List.Chain (· ≤ ·) prev ls)
    (hle : ∀ x ∈ ls, x ≤ 255) (hp : prev ≤ 255) :
    prev ≤ ls.getLastD prev ∧ ls.getLastD prev ≤ 255 := by
  induction ls generalizing prev with
  | nil => exact ⟨le_refl _, hp⟩
  | cons x xs ih =>
    rw [List.chain_cons] at hch
    have hx : x ≤ 255 := hle x (by simp)
    have := ih hch.2 (fun y hy => hle y (by simp [hy])) hx
    rw [List.getLastD_cons]
    exact ⟨le_trans hch.1 this.1, this.2⟩

theorem sortedIndices_perm (levels : List ℕ) :
    (sortedIndices levels).Perm (List.range 8) :=
  List.perm_insertionSort _ _

theorem sortedIndices_sorted (levels : List ℕ) :
    List.Sorted (· ≤ ·) ((sortedIndices levels).map (levelOf levels)) := by
  haveI : IsTotal ℕ (fun i j => levelOf levels i ≤ levelOf levels j) :=
    ⟨fun a b => le_total _ _⟩
  haveI : IsTrans ℕ (fun i j => levelOf levels i ≤ levelOf levels j) :=
    ⟨fun a b c hab hbc => le_trans hab hbc⟩
  have h := List.sorted_insertionSort
    (r := fun i j => levelOf levels i ≤ levelOf levels j) (List.range 8)
  exact List.pairwise_map.mpr h

theorem levelOf_le_of_valid {levels : List ℕ} (hv : ValidLevels levels)
    {i : ℕ} (hi : i < 8) : levelOf levels i ≤ 255 := by
  have hlen : i < levels.length := by rw [hv.1]; exact hi
  have : levelOf levels i ∈ levels := by
    unfold levelOf
    rw [List.getD_eq_getElem levels 0 hlen]
    exact List.getElem_mem hlen
  exact hv.2 _ this

theorem sortedLevels_le {levels : List ℕ} (hv : ValidLevels levels) :
    ∀ x ∈ (sortedIndices levels).map (levelOf levels), x ≤ 255 := by
  intro x hx
  rw [List.mem_map] at hx
  obtain ⟨i, hi, rfl⟩ := hx
  have : i ∈ List.range 8 := ((sortedIndices_perm levels).mem_iff).mp hi
  exact levelOf_le_of_valid hv (List.mem_range.mp this)

theorem sortedLevels_chain (levels : List ℕ) :
    List.Chain (· ≤ ·) 0 ((sortedIndices levels).map (levelOf levels)) := by
  rw [List.chain_iff_pairwise, List.pairwise_cons]
  exact ⟨fun x _ => Nat.zero_le x, sortedIndices_sorted levels⟩

theorem sortedIndices_length (levels : List ℕ) : (sortedIndices levels).length = 8 := by
  rw [(sortedIndices_perm levels).length_eq, List.length_range]

/-- C1: for every array of 8 levels each in `[0, 255]`, `reflect` produces
exactly 9 steps whose lengths sum to exactly 255. -/
theorem c1_sum_invariant (levels : List ℕ) (hv : ValidLevels levels) :
    (reflect levels).length = 9 ∧
    ((reflect levels).map (fun s => s.length)).sum = 255 := by
  have hch := sortedLevels_chain levels
  have hle := sortedLevels_le hv
  have hlast := reflectLoop_snd levels (sortedIndices levels) 255 0
  have hbounds := getLastD_bounds hch hle (by norm_num)
  constructor
  · simp [reflect, reflectLoop_fst_length, sortedIndices_length]
  · have hsum := diffs_sum hch hle
    have hfin : u32sub 255 (((sortedIndices levels).map (levelOf levels)).getLastD 0) =
        255 - ((sortedIndices levels).map (levelOf levels)).getLastD 0 :=
      u32sub_eq hbounds.2 (by norm_num [U32])
    simp only [reflect, List.map_append, List.sum_append, List.map_cons, List.map_nil,
      List.sum_cons, List.sum_nil, reflectLoop_fst_lengths, hlast, hfin]
    omega

/-- Witness for C1 at the all-zero level array. -/
theorem c1_sum_invariant_witness :
    (reflect (List.replicate 8 0)).length = 9 ∧
    ((reflect (List.replicate 8 0)).map (fun s => s.length)).sum = 255 :=
  c1_sum_invariant (List.replicate 8 0) (by decide)

/-- C2: for every array of 8 levels each in `[0, 255]`, every step length
is the difference `a - b` of two levels with `b ≤ a ≤ 255`: the `u32`
subtractions `cur_level - prev_level` and `255 - cur_level` never
underflow (an underflow would wrap to a value `≥ 2^32 - 255`, far above
255). -/
theorem c2_no_underflow (levels : List ℕ) (hv : ValidLevels levels) :
    ∀ s ∈ reflect levels, s.length ≤ 255 ∧
      ∃ a b, b ≤ a ∧ a ≤ 255 ∧ s.length = a - b := by
  have hch := sortedLevels_chain levels
  have hle := sortedLevels_le hv
  have hbounds := getLastD_bounds hch hle (by norm_num)
  intro s hs
  rw [reflect, List.mem_append] at hs
  have hex : ∃ a b, b ≤ a ∧ a ≤ 255 ∧ s.length = a - b := by
    rcases hs with hs | hs
    · have : s.length ∈ (reflectLoop levels (sortedIndices levels) 255 0).1.map
          (fun s => s.length) := List.mem_map_of_mem _ hs
      rw [reflectLoop_fst_lengths] at this
      exact diffs_mem hch hle _ this
    · rcases List.mem_singleton.mp hs with rfl
      refine ⟨255, ((sortedIndices levels).map (levelOf levels)).getLastD 0,
        hbounds.2, le_refl _, ?_⟩
      rw [reflectLoop_snd]
      exact u32sub_eq hbounds.2 (by norm_num [U32])
  obtain ⟨a, b, hba, ha, heq⟩ := hex
  exact ⟨by omega, a, b, hba, ha, heq⟩

/-- Witness for C2 at the first step of the all-zero level array's table. -/
theorem c2_no_underflow_witness :
    (⟨0, 255⟩ : PwmStep).length ≤ 255 ∧
      ∃ a b, b ≤ a ∧ a ≤ 255 ∧ (⟨0, 255⟩ : PwmStep).length = a - b :=
  c2_no_underflow (List.replicate 8 0) (by decide) ⟨0, 255⟩ (by decide)

/-- `a` is a submask of `b`: every bit active in `a` is active in `b`. -/
def maskSub (a b : ℕ) : Prop := ∀ i, a.testBit i = true → b.testBit i = true

theorem maskSub_refl (a : ℕ) : maskSub a a := fun _ h => h

theorem maskSub_trans {a b c : ℕ} (h1 : maskSub a b) (h2 : maskSub b c) :
    maskSub a c := fun i h => h2 i (h1 i h)

theorem maskSub_zero (b : ℕ) : maskSub 0 b := by
  intro i h
  rw [Nat.zero_testBit] at h
  exact absurd h (by simp)

theorem maskSub_land (d x : ℕ) : maskSub (d &&& x) d := by
  intro i h
  rw [Nat.testBit_and] at h
  exact (Bool.and_eq_true_iff.mp h).1

theorem activeBits_mono {a b : ℕ} (h : maskSub a b) : activeBits a ≤ activeBits b :=
  List.countP_mono_left (fun i _ hp => h i hp)

theorem dataTrace_length (idxs : List ℕ) (d : ℕ) : (dataTrace idxs d).length = idxs.length := by
  induction idxs generalizing d with
  | nil => rfl
  | cons i rest ih => simp [dataTrace, ih]

theorem dataTrace_chain (idxs : List ℕ) (d : ℕ) :
    List.Chain' (fun a b => maskSub b a) (dataTrace idxs d ++ [0]) := by
  induction idxs generalizing d with
  | nil => exact List.chain'_singleton 0
  | cons i rest ih =>
    show List.Chain' _ (d :: (dataTrace rest (d &&& u32not (1 <<< i)) ++ [0]))
    rw [List.chain'_cons']
    refine ⟨?_, ih _⟩
    intro y hy
    cases rest with
    | nil =>
      simp only [dataTrace, List.nil_append, List.head?_cons, Option.mem_def,
        Option.some.injEq] at hy
      rw [← hy]
      exact maskSub_zero d
    | cons j rest' =>
      simp only [dataTrace, List.cons_append, List.head?_cons, Option.mem_def,
        Option.some.injEq] at hy
      rw [← hy]
      exact maskSub_land d _

/-- The mask column of the step table is the loop's mask trace followed by
the literal all-off mask of the ninth step. -/
theorem reflect_masks (levels : List ℕ) :
    (reflect levels).map (fun s => s.data) = dataTrace (sortedIndices levels) 255 ++ [0] := by
  simp [reflect, reflectLoop_fst_masks]

theorem reflect_masks_chain (levels : List ℕ) :
    List.Chain' (fun a b => maskSub b a) ((reflect levels).map (fun s => s.data)) := by
  rw [reflect_masks]
  exact dataTrace_chain _ _

theorem chain'_maskSub_adjacent {l : List ℕ}
    (h : List.Chain' (fun a b => maskSub b a) l) (n : ℕ) :
    maskSub (l.getD (n + 1) 0) (l.getD n 0) := by
  by_cases hn : n + 1 < l.length
  · have hget := List.chain'_iff_get.mp h n (by omega)
    rw [List.getD_eq_getElem _ 0 hn, List.getD_eq_getElem _ 0 (by omega : n < l.length)]
    simpa using hget
  · rw [List.getD_eq_default _ 0 (by omega : l.length ≤ n + 1)]
    exact maskSub_zero _

theorem chain'_maskSub_getD {l : List ℕ}
    (h : List.Chain' (fun a b => maskSub b a) l) {j k : ℕ} (hjk : j ≤ k) :
    maskSub (l.getD k 0) (l.getD j 0) := by
  induction k, hjk using Nat.le_induction with
  | base => exact maskSub_refl _
  | succ k hk ih => exact maskSub_trans (chain'_maskSub_adjacent h k) ih

/-- C3: for every array of 8 levels each in `[0, 255]`, the step table has
9 masks, the number of active bits is non-increasing across the sequence,
the ninth mask has no active bit, and every LED bit is active on a prefix
of the sequence only: once inactive at some step it stays inactive at
every later step. -/
theorem c3_monotone_masks (levels : List ℕ) (hv : ValidLevels levels) :
    ((reflect levels).map (fun s => s.data)).length = 9 ∧
    (∀ (i : ℕ), i + 1 < 9 →
      activeBits (((reflect levels).map (fun s => s.data)).getD (i + 1) 0) ≤
        activeBits (((reflect levels).map (fun s => s.data)).getD i 0)) ∧
    ((reflect levels).map (fun s => s.data)).getD 8 0 = 0 ∧
    (∀ (b j k : ℕ), j ≤ k →
      Nat.testBit (((reflect levels).map (fun s => s.data)).getD k 0) b = true →
      Nat.testBit (((reflect levels).map (fun s => s.data)).getD j 0) b = true) := by
  have hchain := reflect_masks_chain levels
  refine ⟨?_, ?_, ?_, ?_⟩
  · rw [reflect_masks, List.length_append, dataTrace_length, sortedIndices_length]
    rfl
  · intro i _
    exact activeBits_mono (chain'_maskSub_adjacent hchain i)
  · rw [reflect_masks,
      List.getD_append_right _ _ _ _ (by rw [dataTrace_length, sortedIndices_length]),
      dataTrace_length, sortedIndices_length]
    rfl
  · intro b j k hjk hk
    exact chain'_maskSub_getD hchain hjk b hk

/-- Witness for C3 at the all-zero level array. -/
theorem c3_monotone_masks_witness :
    ((reflect (List.replicate 8 0)).map (fun s => s.data)).length = 9 ∧
    (∀ (i : ℕ), i + 1 < 9 →
      activeBits (((reflect (List.replicate 8 0)).map (fun s => s.data)).getD (i + 1) 0) ≤
        activeBits (((reflect (List.replicate 8 0)).map (fun s => s.data)).getD i 0)) ∧
    ((reflect (List.replicate 8 0)).map (fun s => s.data)).getD 8 0 = 0 ∧
    (∀ (b j k : ℕ), j ≤ k →
      Nat.testBit (((reflect (List.replicate 8 0)).map (fun s => s.data)).getD k 0) b = true →
      Nat.testBit (((reflect (List.replicate 8 0)).map (fun s => s.data)).getD j 0) b = true) :=
  c3_monotone_masks (List.replicate 8 0) (by decide)

theorem diffs_length (prev : ℕ) (ls : List ℕ) : (diffs prev ls).length = ls.length := by
  induction ls generalizing prev with
  | nil => rfl
  | cons x xs ih => simp [diffs, ih]

theorem u32not_shift_testBit {j : ℕ} (hj : j < 32) (b : ℕ) :
    (u32not (1 <<< j)).testBit b = (decide (b < 32) && !(decide (j = b))) := by
  have h1 : (1 : ℕ) <<< j = 2 ^ j := by rw [Nat.shiftLeft_eq, one_mul]
  have h2 : U32 - 1 = 2 ^ 32 - 1 := rfl
  rw [u32not, h1, h2, Nat.testBit_xor, Nat.testBit_two_pow_sub_one, Nat.testBit_two_pow]
  by_cases hb : b < 32
  · simp [hb]
  · have : j ≠ b := by omega
    simp [hb, this]

theorem clear_testBit {d j b : ℕ} (hj : j < 32) (hb : b < 32) :
    (d &&& u32not (1 <<< j)).testBit b = (d.testBit b && !(decide (j = b))) := by
  rw [Nat.testBit_and, u32not_shift_testBit hj, decide_eq_true hb, Bool.true_and]

theorem foldl_clear_testBit (pref : List ℕ) (hj : ∀ j ∈ pref, j < 32) (d b : ℕ)
    (hb : b < 32) :
    ((pref.foldl (fun acc j => acc &&& u32not (1 <<< j)) d).testBit b) =
      (d.testBit b && !(decide (b ∈ pref))) := by
  induction pref generalizing d with
  | nil => simp
  | cons j rest ih =>
    have hj32 : j < 32 := hj j (by simp)
    rw [List.foldl_cons, ih (fun x hx => hj x (by simp [hx])),
      clear_testBit hj32 hb]
    by_cases hbj : b = j
    · subst hbj
      simp
    · have hjb : j ≠ b := fun h => hbj h.symm
      simp [hbj, hjb, Bool.and_assoc]

theorem dataTrace_getD (idxs : List ℕ) (d i : ℕ) (hi : i < idxs.length) :
    (dataTrace idxs d).getD i 0 =
      (idxs.take i).foldl (fun acc j => acc &&& u32not (1 <<< j)) d := by
  induction idxs generalizing d i with
  | nil => simp at hi
  | cons j rest ih =>
    cases i with
    | zero => rfl
    | succ i =>
      show (dataTrace rest _).getD i 0 = _
      rw [ih _ i (by simpa using hi), List.take_succ_cons, List.foldl_cons]

theorem nodup_getD_mem_take {l : List ℕ} (hnd : l.Nodup) {j i : ℕ} (hj : j < l.length) :
    l.getD j 0 ∈ l.take i ↔ j < i := by
  rw [List.getD_eq_getElem _ 0 hj, List.mem_take_iff_getElem]
  constructor
  · rintro ⟨k, hk, hkj⟩
    have : k = j := (hnd.getElem_inj_iff).mp hkj
    omega
  · intro hji
    exact ⟨j, by omega, rfl⟩

theorem sortedIndices_nodup (levels : List ℕ) : (sortedIndices levels).Nodup :=
  (sortedIndices_perm levels).nodup_iff.mpr (List.nodup_range 8)

theorem sortedIndices_lt {levels : List ℕ} {i : ℕ} (hi : i ∈ sortedIndices levels) :
    i < 8 :=
  List.mem_range.mp ((sortedIndices_perm levels).mem_iff.mp hi)

/-- C4: for every array of 8 levels each in `[0, 255]`, the first 8 steps
follow the LED indices in non-decreasing order of level (ties broken by
some permutation): there is a permutation `perm` of `0..7`, sorted by
level, such that the step lengths are the successive level differences
along `perm`, and step `i`'s mask holds LED `perm j`'s bit exactly when
`i ≤ j` — step `i` is the step after which LED `perm i` turns off. -/
theorem c4_sorted_steps (levels : List ℕ) (hv : ValidLevels levels) :
    ∃ perm : List ℕ, perm.Perm (List.range 8) ∧
      List.Sorted (· ≤ ·) (perm.map (levelOf levels)) ∧
      ((reflect levels).map (fun s => s.length)).take 8 =
        diffs 0 (perm.map (levelOf levels)) ∧
      (∀ (i j : ℕ), i < 8 → j < 8 →
        Nat.testBit (((reflect levels).map (fun s => s.data)).getD i 0) (perm.getD j 0) =
          decide (i ≤ j)) := by
  refine ⟨sortedIndices levels, sortedIndices_perm levels, sortedIndices_sorted levels,
    ?_, ?_⟩
  · rw [reflect, List.map_append, reflectLoop_fst_lengths]
    exact List.take_left' (by rw [diffs_length, List.length_map, sortedIndices_length])
  · intro i j hi hj
    have hlen : (sortedIndices levels).length = 8 := sortedIndices_length levels
    have hnd := sortedIndices_nodup levels
    have hji : (sortedIndices levels).getD j 0 ∈ sortedIndices levels := by
      rw [List.getD_eq_getElem _ 0 (by omega)]
      exact List.getElem_mem _
    have hjlt : (sortedIndices levels).getD j 0 < 8 := sortedIndices_lt hji
    rw [reflect_masks,
      List.getD_append _ _ _ _ (by rw [dataTrace_length]; omega),
      dataTrace_getD _ _ _ (by omega),
      foldl_clear_testBit _ (fun x hx => by
        have := sortedIndices_lt (List.mem_of_mem_take hx); omega) _ _ (by omega)]
    have h255 : Nat.testBit 255 ((sortedIndices levels).getD j 0) = true := by
      have : (255 : ℕ) = 2 ^ 8 - 1 := by norm_num
      rw [this, Nat.testBit_two_pow_sub_one]
      exact decide_eq_true hjlt
    have hdq : decide ((sortedIndices levels).getD j 0 ∈ (sortedIndices levels).take i) =
        decide (j < i) :=
      decide_eq_decide.mpr (nodup_getD_mem_take hnd (by omega))
    rw [h255, Bool.true_and, hdq]
    by_cases hij : i ≤ j
    · simp [hij, Nat.not_lt.mpr hij]
    · simp [hij, Nat.lt_of_not_le hij]

/-- Witness for C4 at the all-zero level array. -/
theorem c4_sorted_steps_witness :
    ∃ perm : List ℕ, perm.Perm (List.range 8) ∧
      List.Sorted (· ≤ ·) (perm.map (levelOf (List.replicate 8 0))) ∧
      ((reflect (List.replicate 8 0)).map (fun s => s.length)).take 8 =
        diffs 0 (perm.map (levelOf (List.replicate 8 0))) ∧
      (∀ (i j : ℕ), i < 8 → j < 8 →
        Nat.testBit
          (((reflect (List.replicate 8 0)).map (fun s => s.data)).getD i 0)
          (perm.getD j 0) = decide (i ≤ j)) :=
  c4_sorted_steps (List.replicate 8 0) (by decide)

theorem reflect_length (levels : List ℕ) : (reflect levels).length = 9 := by
  simp [reflect, reflectLoop_fst_length, sortedIndices_length]

/-- C5: on `levels = [255, 0, 0, 0, 0, 0, 0, 0]` the 7 steps of the
zero-level LEDs have length 0, the 8th step has length 255 with only LED
0's bit (mask 1) active, and the 9th step has length 0 and mask 0. -/
theorem c5_single_max :
    (reflect [255, 0, 0, 0, 0, 0, 0, 0]).length = 9 ∧
    (∀ (i : ℕ), i < 7 →
      ((reflect [255, 0, 0, 0, 0, 0, 0, 0]).getD i ⟨0, 0⟩).length = 0) ∧
    (reflect [255, 0, 0, 0, 0, 0, 0, 0]).getD 7 ⟨0, 0⟩ = ⟨255, 1⟩ ∧
    (reflect [255, 0, 0, 0, 0, 0, 0, 0]).getD 8 ⟨0, 0⟩ = ⟨0, 0⟩ := by
  decide

/-- Truncation toward zero, the rounding of Rust float-to-integer casts. -/
def truncQ (x : ℚ) : ℤ := if 0 ≤ x then ⌊x⌋ else ⌈x⌉

/-- Rust saturating cast `x as u32` (also `as usize` on the 32-bit
RP2040), on the exact rational model of the `f32` value: negative values
saturate to 0, values above `u32::MAX` to `u32::MAX`, the rest truncate
toward zero. -/
def f32toU32 (x : ℚ) : ℕ := if x < 0 then 0 else min ⌊x⌋.toNat (U32 - 1)

/-- Rust saturating cast `x as i32`. -/
def f32toI32 (x : ℚ) : ℤ := max (-(2 ^ 31)) (min (2 ^ 31 - 1) (truncQ x))

/-- `fn floor(x: f32) -> f32` from the source: `(x as i32) as f32`,
decremented by one when the truncation exceeds `x` (negative
non-integers). -/
def floor (x : ℚ) : ℚ :=
  let res : ℚ := (f32toI32 x : ℚ)
  if x < res then res - 1 else res

/-- Rust `%` on floats: the remainder `a - b * trunc(a / b)`, with the
sign of the dividend. -/
def fmodQ (a b : ℚ) : ℚ := a - b * (truncQ (a / b) : ℚ)

/-- `let fract = *c.local.cur_pos - cur_index;` (before the cast). -/
def fractOf (pos : ℚ) : ℚ := pos - floor pos

/-- `let cur_index = cur_index as usize;`. -/
def cur_index (pos : ℚ) : ℕ := f32toU32 (floor pos)

/-- `let prev_index = (cur_index + 8 - 1) % 8;`. -/
def prev_index (pos : ℚ) : ℕ := (cur_index pos + 8 - 1) % 8

/-- `let next_index = (cur_index + 8 + 1) % 8;`. -/
def next_index (pos : ℚ) : ℕ := (cur_index pos + 8 + 1) % 8

/-- `data.pwm_levels[cur_index] = (255. * (1.0 - fract)) as u32;`. -/
def levelCur (fract : ℚ) : ℕ := f32toU32 (255 * (1 - fract))

/-- `data.pwm_levels[next_index] = (255. * (fract - 0.4) * 1.667) as u32;`. -/
def levelNext (fract : ℚ) : ℕ := f32toU32 (255 * (fract - 0.4) * 1.667)

/-- The three level writes of one `update_data` tick, in source order. -/
def update_data (pos : ℚ) (levels : List ℕ) : List ℕ :=
  ((levels.set (prev_index pos) 0).set (cur_index pos) (levelCur (fractOf pos))).set
    (next_index pos) (levelNext (fractOf pos))

/-- `*c.local.cur_pos = (*c.local.cur_pos + 0.03) % 8.0;`. -/
def nextPos (pos : ℚ) : ℚ := fmodQ (pos + 0.03) 8

theorem floor_eq {x : ℚ} (h0 : 0 ≤ x) (hlt : x < 2 ^ 31) : floor x = (⌊x⌋ : ℚ) := by
  have ht : truncQ x = ⌊x⌋ := if_pos h0
  have hfl0 : (0 : ℤ) ≤ ⌊x⌋ := Int.floor_nonneg.mpr h0
  have hflu : ⌊x⌋ < 2 ^ 31 := Int.floor_lt.mpr (by exact_mod_cast hlt)
  unfold floor f32toI32
  rw [ht, min_eq_right (by omega), max_eq_right (by omega),
    if_neg (not_lt.mpr (Int.floor_le x))]

theorem fractOf_eq {pos : ℚ} (h0 : 0 ≤ pos) (hlt : pos < 2 ^ 31) :
    fractOf pos = Int.fract pos := by
  rw [fractOf, floor_eq h0 hlt, Int.fract]

theorem f32toU32_le_of_lt {x : ℚ} {n : ℕ} (h : x < n + 1) : f32toU32 x ≤ n := by
  unfold f32toU32
  split
  · exact Nat.zero_le n
  · have hfl : ⌊x⌋ < (n : ℤ) + 1 := Int.floor_lt.mpr (by exact_mod_cast h)
    exact le_trans (min_le_left _ _) (Int.toNat_le.mpr (by omega))

theorem fmodQ_bounds {a : ℚ} (h0 : 0 ≤ a) : 0 ≤ fmodQ a 8 ∧ fmodQ a 8 < 8 := by
  unfold fmodQ truncQ
  rw [if_pos (by positivity : (0 : ℚ) ≤ a / 8)]
  have h1 : (⌊a / 8⌋ : ℚ) ≤ a / 8 := Int.floor_le _
  have h2 : a / 8 < ⌊a / 8⌋ + 1 := Int.lt_floor_add_one _
  constructor <;> nlinarith

theorem levelNext_of_lt {fract : ℚ} (h : fract < 0.4) : levelNext fract = 0 := by
  unfold levelNext f32toU32
  rw [if_pos]
  have h1 : fract - 0.4 < 0 := by linarith
  nlinarith

/-- C6 counterexample: at fractional part `1/2` — reached exactly by the
`f32` computation, every operation `1.0 - 0.5`, `255.0 * 0.5` being exact
in `f32` — the code writes `⌊127.5⌋ = 127`, while rounding `127.5` to the
nearest integer gives `128`. -/
theorem c6_counterexample :
    (levelCur (1 / 2) : ℤ) = 127 ∧ round ((255 : ℚ) * (1 - 1 / 2)) = 128 := by
  constructor
  · have h1 : (255 : ℚ) * (1 - 1 / 2) = 255 / 2 := by norm_num
    have h2 : ⌊(255 : ℚ) / 2⌋ = 127 := by norm_num
    rw [levelCur, f32toU32, h1, if_neg (by norm_num), h2]
    rfl
  · rw [round_eq]
    norm_num

/-- C6 amended: the cast truncates instead of rounding: for every
fractional part in `[0, 1]`, the level written at the current index is
`⌊255 * (1 - fract)⌋`, the value truncated toward zero. -/
theorem c6_truncates (fract : ℚ) (h0 : 0 ≤ fract) (h1 : fract ≤ 1) :
    (levelCur fract : ℤ) = ⌊255 * (1 - fract)⌋ := by
  unfold levelCur f32toU32
  have hx : (0 : ℚ) ≤ 255 * (1 - fract) := by nlinarith
  rw [if_neg (not_lt.mpr hx)]
  have hfl0 : (0 : ℤ) ≤ ⌊255 * (1 - fract)⌋ := Int.floor_nonneg.mpr hx
  have hfl : ⌊255 * (1 - fract)⌋ ≤ 255 := by
    have h255 : 255 * (1 - fract) ≤ 255 := by nlinarith
    calc ⌊255 * (1 - fract)⌋ ≤ ⌊(255 : ℚ)⌋ := Int.floor_le_floor h255
    _ = 255 := by norm_num
  rw [min_eq_left (by unfold U32; omega)]
  omega

/-- Witness for the amended C6 at fractional part `1/2`. -/
theorem c6_truncates_witness :
    (levelCur (1 / 2) : ℤ) = ⌊(255 : ℚ) * (1 - 1 / 2)⌋ :=
  c6_truncates (1 / 2) (by norm_num) (by norm_num)

/-- C7 counterexample: the claimed wrap-around does not exist: there is no
fractional part below `0.4` for which the cast produces a large value —
Rust float-to-integer casts saturate, so the level is 0, never a value
beyond the 8-bit range. -/
theorem c7_counterexample :
    ¬ ∃ fract : ℚ, fract < 0.4 ∧ 256 ≤ levelNext fract := by
  rintro ⟨fract, hf, hge⟩
  rw [levelNext_of_lt hf] at hge
  omega

/-- C7 amended: for every fractional part below `0.4` the value
`255 * (fract - 0.4) * 1.667` is negative and the `as u32` cast saturates
it to exactly 0 (the clamping the spec asks for is what the code already
does). -/
theorem c7_saturates (fract : ℚ) (h : fract < 0.4) : levelNext fract = 0 :=
  levelNext_of_lt h

/-- Witness for the amended C7 at fractional part 0. -/
theorem c7_saturates_witness : levelNext 0 = 0 :=
  c7_saturates 0 (by norm_num)

/-- C10: a tick from any position in `[0, 8)` computes three in-bounds
indices, writes levels that keep the array valid (8 entries, each at most
255), and produces a new position again in `[0, 8)`. -/
theorem c10_tick_safety (pos : ℚ) (levels : List ℕ) (hv : ValidLevels levels)
    (h0 : 0 ≤ pos) (h8 : pos < 8) :
    cur_index pos < 8 ∧ prev_index pos < 8 ∧ next_index pos < 8 ∧
    levelCur (fractOf pos) ≤ 255 ∧ levelNext (fractOf pos) ≤ 255 ∧
    ValidLevels (update_data pos levels) ∧
    0 ≤ nextPos pos ∧ nextPos pos < 8 := by
  have hlt31 : pos < 2 ^ 31 := lt_trans h8 (by norm_num)
  have hfr := fractOf_eq h0 hlt31
  have hf0 : 0 ≤ fractOf pos := by rw [hfr]; exact Int.fract_nonneg pos
  have hf1 : fractOf pos < 1 := by rw [hfr]; exact Int.fract_lt_one pos
  have hcur : cur_index pos < 8 := by
    rw [cur_index, floor_eq h0 hlt31]
    have hfl : ⌊pos⌋ < 8 := Int.floor_lt.mpr (by exact_mod_cast h8)
    have hc : ((⌊pos⌋ : ℚ)) < (7 : ℕ) + 1 := by exact_mod_cast hfl
    exact Nat.lt_succ_of_le (f32toU32_le_of_lt hc)
  have hlc : levelCur (fractOf pos) ≤ 255 := by
    apply f32toU32_le_of_lt
    push_cast
    nlinarith
  have hln : levelNext (fractOf pos) ≤ 255 := by
    apply f32toU32_le_of_lt
    push_cast
    nlinarith
  have hmod := fmodQ_bounds (by linarith : (0 : ℚ) ≤ pos + 0.03)
  refine ⟨hcur, Nat.mod_lt _ (by norm_num), Nat.mod_lt _ (by norm_num),
    hlc, hln, ⟨?_, ?_⟩, hmod.1, hmod.2⟩
  · simp [update_data, hv.1]
  · intro l hl
    rcases List.mem_or_eq_of_mem_set hl with hl | rfl
    · rcases List.mem_or_eq_of_mem_set hl with hl | rfl
      · rcases List.mem_or_eq_of_mem_set hl with hl | rfl
        · exact hv.2 l hl
        · exact Nat.zero_le 255
      · exact hlc
    · exact hln

/-- Witness for C10 at position 0 with the all-zero level array. -/
theorem c10_tick_safety_witness :
    cur_index 0 < 8 ∧ prev_index 0 < 8 ∧ next_index 0 < 8 ∧
    levelCur (fractOf 0) ≤ 255 ∧ levelNext (fractOf 0) ≤ 255 ∧
    ValidLevels (update_data 0 (List.replicate 8 0)) ∧
    0 ≤ nextPos 0 ∧ nextPos 0 < 8 :=
  c10_tick_safety 0 (List.replicate 8 0) (by decide) (by norm_num) (by norm_num)

/-- The shared record guarded by the RTIC `lock`, together with the
generator's local position: `Shared { data: PwmData }` plus
`cur_pos: f32`. -/
structure SysState where
  levels : List ℕ
  steps : List PwmStep
  pos : ℚ

/-- `init`: `PwmData::new()`, `data.pwm_levels = [0; 8]`, `data.reflect()`
before either task is spawned, with `cur_pos = 0.0`. -/
def initState : SysState :=
  ⟨List.replicate 8 0, reflect (List.replicate 8 0), 0⟩

/-- One full `update_data` loop iteration: the `data.lock(...)` critical
section — the three level writes followed by `data.reflect()` — then the
local `cur_pos` advance.  RTIC's `lock` guarantees mutual exclusion, so
the critical section is one atomic transition with respect to the
player's own `lock`ed snapshot. -/
def updateTick (s : SysState) : SysState :=
  ⟨update_data s.pos s.levels, reflect (update_data s.pos s.levels), nextPos s.pos⟩

/-- C8: after any number of generator ticks interleaved with player
cycles, the step table a player snapshot (`data.lock(|data|
data.pwm_steps)`) copies is `reflect` of the single current level array —
never a mixture of the outputs of two `reflect` calls.  (Player cycles do
not change the shared state, so the reachable states are exactly the
iterates of `updateTick` from `initState`.) -/
theorem c8_snapshot_atomicity (n : ℕ) :
    (updateTick^[n] initState).steps = reflect ((updateTick^[n] initState).levels) := by
  induction n with
  | zero => rfl
  | succ n _ => rw [Function.iterate_succ_apply']; rfl

/-- Witness for C8 after one generator tick. -/
theorem c8_snapshot_atomicity_witness :
    (updateTick^[1] initState).steps = reflect ((updateTick^[1] initState).levels) :=
  c8_snapshot_atomicity 1

/-- `repeat_pwm`'s inner loop on one snapshot: per step, in order, the
word written to the PIO TX FIFO (`tx.write(step.data << 24)`) paired with
the duration in microseconds of the delay that follows
(`(step.length * 100).micros()`). -/
def playSteps (steps : List PwmStep) : List (ℕ × ℕ) :=
  steps.map (fun s => (u32shl s.data 24, s.length * 100))

theorem dataTrace_le {idxs : List ℕ} {d : ℕ} (hd : d ≤ 255) :
    ∀ m ∈ dataTrace idxs d, m ≤ 255 := by
  induction idxs generalizing d with
  | nil => simp [dataTrace]
  | cons i rest ih =>
    intro m hm
    rcases List.mem_cons.mp hm with rfl | hm
    · exact hd
    · exact ih (le_trans Nat.and_le_left hd) m hm

theorem reflect_data_le (levels : List ℕ) : ∀ s ∈ reflect levels, s.data ≤ 255 := by
  intro s hs
  have : s.data ∈ (reflect levels).map (fun s => s.data) := List.mem_map_of_mem _ hs
  rw [reflect_masks] at this
  rcases List.mem_append.mp this with h | h
  · exact dataTrace_le (le_refl 255) _ h
  · rw [List.mem_singleton.mp h]
    exact Nat.zero_le 255

/-- C9: replaying a snapshot produces exactly 9 events in step order;
event `i` writes the `i`-th mask positioned in the top byte of the 32-bit
word (shifted left by 24 bits, without wrap-around since the mask fits in
8 bits) and then suspends for the `i`-th length times 100 microseconds. -/
theorem c9_player_events (levels : List ℕ) (hv : ValidLevels levels) :
    (playSteps (reflect levels)).length = 9 ∧
    ∀ (i : ℕ), i < 9 →
      (playSteps (reflect levels)).getD i (0, 0) =
        (((reflect levels).getD i ⟨0, 0⟩).data * 2 ^ 24,
          ((reflect levels).getD i ⟨0, 0⟩).length * 100) ∧
      ((reflect levels).getD i ⟨0, 0⟩).data * 2 ^ 24 < U32 := by
  have hlen : (reflect levels).length = 9 := reflect_length levels
  constructor
  · rw [playSteps, List.length_map, hlen]
  · intro i hi
    have hi' : i < (reflect levels).length := by omega
    have hmem : (reflect levels).getD i ⟨0, 0⟩ ∈ reflect levels := by
      rw [List.getD_eq_getElem _ _ hi']
      exact List.getElem_mem hi'
    have hd255 : ((reflect levels).getD i ⟨0, 0⟩).data ≤ 255 :=
      reflect_data_le levels _ hmem
    have hlt : ((reflect levels).getD i ⟨0, 0⟩).data * 2 ^ 24 < U32 := by
      unfold U32
      calc ((reflect levels).getD i ⟨0, 0⟩).data * 2 ^ 24 ≤ 255 * 2 ^ 24 :=
        Nat.mul_le_mul_right _ hd255
      _ < 2 ^ 32 := by norm_num
    refine ⟨?_, hlt⟩
    rw [playSteps, List.getD_eq_getElem _ _ (by rw [List.length_map]; omega),
      List.getElem_map, List.getD_eq_getElem _ _ hi']
    have hshl : u32shl ((reflect levels)[i]).data 24 =
        ((reflect levels)[i]).data * 2 ^ 24 := by
      rw [u32shl, Nat.shiftLeft_eq]
      apply Nat.mod_eq_of_lt
      rw [List.getD_eq_getElem _ _ hi'] at hlt
      exact hlt
    rw [hshl]

/-- Witness for C9 at the all-zero level array. -/
theorem c9_player_events_witness :
    (playSteps (reflect (List.replicate 8 0))).length = 9 ∧
    ∀ (i : ℕ), i < 9 →
      (playSteps (reflect (List.replicate 8 0))).getD i (0, 0) =
        (((reflect (List.replicate 8 0)).getD i ⟨0, 0⟩).data * 2 ^ 24,
          ((reflect (List.replicate 8 0)).getD i ⟨0, 0⟩).length * 100) ∧
      ((reflect (List.replicate 8 0)).getD i ⟨0, 0⟩).data * 2 ^ 24 < U32 :=
  c9_player_events (List.replicate 8 0) (by decide)

end Rp2040
